import Mathlib

/-
Verification of the document-grounded retrieval engine in
src/agents/rag/rag_agent.py (single-turn RAG agent).

Strings are modelled as `List Char`; Python floats are modelled as real
numbers; the two external collaborators (embedding provider, generation
provider) are modelled as explicit parameters holding the value the
provider call would produce, with `Option`/emptiness encoding provider
failure exactly as the source maps it.
-/

/-! ## Text Normalizer (rag_agent.py lines 67-103) -/

/-- ASCII whitespace, the subset of characters matched by the `\s` class
and by `str.strip` that can occur in this development; wider Unicode
whitespace is not modelled. -/
def isPySpace (c : Char) : Bool :=
  c == ' ' || c == '\t' || c == '\n' || c == '\r' || c == '\x0b' || c == '\x0c'

/-- One pass of `re.sub(r"\s+", " ", text)`: every maximal whitespace run
becomes a single space.  The boolean records whether the previous character
was whitespace (i.e. whether we are inside a run already replaced). -/
def collapseWSAux : Bool → List Char → List Char
  | _, [] => []
  | prevWS, c :: rest =>
    if isPySpace c then
      if prevWS then collapseWSAux true rest
      else ' ' :: collapseWSAux true rest
    else c :: collapseWSAux false rest

/-- Removal of trailing whitespace (the right half of `str.strip`). -/
def rstripWS : List Char → List Char
  | [] => []
  | c :: rest =>
    let r := rstripWS rest
    if r.isEmpty && isPySpace c then [] else c :: r

/-- Python `str.strip()`: drop leading and trailing whitespace. -/
def pyStrip (s : List Char) : List Char :=
  rstripWS (s.dropWhile isPySpace)

/-- `normalize_text` (lines 67-69): collapse whitespace runs to single
spaces, then strip. -/
def normalize_text (text : List Char) : List Char :=
  pyStrip (collapseWSAux false text)

/-- The `[A-Za-z0-9]` character class of `tokenize`. -/
def isAlnumAscii (c : Char) : Bool :=
  ( 'A' ≤ c && c ≤ 'Z') || ( 'a' ≤ c && c ≤ 'z') || ( '0' ≤ c && c ≤ '9')

/-- The fixed stopword set of `tokenize` (lines 74-102). -/
def stopwords : List (List Char) :=
  [ "the".data, "and".data, "of".data, "in".data, "to".data, "for".data,
    "a".data, "an".data, "on".data, "with".data, "at".data, "by".data,
    "from".data, "is".data, "are".data, "as".data, "that".data, "this".data,
    "it".data, "be".data, "what".data, "why".data, "how".data, "who".data,
    "which".data, "when".data, "where".data ]

/-- `re.findall(r"[A-Za-z0-9]+", ...)`: maximal alphanumeric runs, in
order.  `acc` is the current run, reversed. -/
def findAlnumAux : List Char → List Char → List (List Char)
  | acc, [] => if acc.isEmpty then [] else [acc.reverse]
  | acc, c :: rest =>
    if isAlnumAscii c then findAlnumAux (c :: acc) rest
    else if acc.isEmpty then findAlnumAux [] rest
    else acc.reverse :: findAlnumAux [] rest

/-- `tokenize` (lines 72-103): lowercase, extract alphanumeric runs, drop
empty tokens and stopwords.  `Char.toLower` models Python `str.lower` on
the ASCII text this system handles. -/
def tokenize (text : List Char) : List (List Char) :=
  (findAlnumAux [] (text.map Char.toLower)).filter
    (fun t => !t.isEmpty && !stopwords.contains t)

/-! ## Sentence Splitter (lines 106-108) -/

/-- The `[.!?]` class of `split_sentences`. -/
def isSentEnd (c : Char) : Bool :=
  c == '.' || c == '!' || c == '?'

/-- `re.split(r"(?<=[.!?])\s+", text)`: cut the text at every maximal
whitespace run immediately preceded by `.`, `!` or `?`, removing the run.
`acc` is the current segment, reversed. -/
def splitSentencesAux : List Char → List Char → List (List Char)
  | acc, [] => [acc.reverse]
  | acc, c :: [] => [(c :: acc).reverse]
  | acc, c :: d :: rest =>
    if isSentEnd c && isPySpace d then
      (c :: acc).reverse :: splitSentencesAux [] (rest.dropWhile isPySpace)
    else
      splitSentencesAux (c :: acc) (d :: rest)
  termination_by _ l => l.length
  decreasing_by
  · have h : (rest.dropWhile isPySpace).length ≤ rest.length :=
      (List.dropWhile_sublist _).length_le
    simp only [List.length_cons]
    omega
  · simp only [List.length_cons]
    omega

/-- `split_sentences` (lines 106-108): split on sentence boundaries, strip
each part, drop parts that are empty after stripping. -/
def split_sentences (text : List Char) : List (List Char) :=
  ((splitSentencesAux [] text).map pyStrip).filter (fun s => !s.isEmpty)

/-! ## Chunker (lines 111-125) -/

def TOP_K : Nat := 3

def MAX_CHARS_PER_CHUNK : Nat := 900

/-- Python `" ".join`. -/
def joinSpace : List (List Char) → List Char
  | [] => []
  | [s] => s
  | s :: rest => s ++ ' ' :: joinSpace rest

/-- The sentence-accumulation loop of `chunk_text` (lines 113-124):
`current` is the running buffer of sentences, `currentLen` the running
`current_len` counter. -/
def chunkGo (maxChars : Nat) : List (List Char) → List (List Char) → Nat → List (List Char)
  | [], current, _ =>
    if current = [] then [] else [pyStrip (joinSpace current)]
  | s :: rest, current, currentLen =>
    if maxChars < currentLen + s.length ∧ current ≠ [] then
      pyStrip (joinSpace current) :: chunkGo maxChars rest [s] (s.length + 1)
    else
      chunkGo maxChars rest (current ++ [s]) (currentLen + s.length + 1)

/-- `chunk_text` (lines 111-125): pack sentences greedily into chunks of at
most `maxChars` characters, then drop empty chunks. -/
def chunk_text (text : List Char) (maxChars : Nat) : List (List Char) :=
  (chunkGo maxChars (split_sentences text) [] 0).filter (fun c => !c.isEmpty)

/-! ## Normalizer lemmas, towards idempotence of `normalize_text` -/

theorem dropWhile_isPySpace_idem (l : List Char) :
    (l.dropWhile isPySpace).dropWhile isPySpace = l.dropWhile isPySpace := by
  induction l with
  | nil => rfl
  | cons c rest ih =>
    by_cases h : isPySpace c
    · simp [List.dropWhile_cons, h, ih]
    · simp [List.dropWhile_cons, h]

theorem rstripWS_idem (l : List Char) : rstripWS (rstripWS l) = rstripWS l := by
  induction l with
  | nil => rfl
  | cons c rest ih =>
    cases hb : ((rstripWS rest).isEmpty && isPySpace c) with
    | true => simp [rstripWS, hb]
    | false =>
      have h1 : rstripWS (c :: rest) = c :: rstripWS rest := by
        simp [rstripWS, hb]
      rw [h1, show rstripWS (c :: rstripWS rest) = c :: rstripWS rest by
        simp [rstripWS, ih, hb]]

theorem dropWhile_rstripWS (l : List Char) (hd : l.dropWhile isPySpace = l) :
    (rstripWS l).dropWhile isPySpace = rstripWS l := by
  cases l with
  | nil => rfl
  | cons c rest =>
    have hc : isPySpace c = false := by
      by_contra hcc
      have hc : isPySpace c = true := by
        cases hcv : isPySpace c
        · exact absurd hcv hcc
        · rfl
      rw [List.dropWhile_cons, hc] at hd
      simp only [if_pos] at hd
      have hlen : (rest.dropWhile isPySpace).length ≤ rest.length :=
        (List.dropWhile_sublist _).length_le
      have := congrArg List.length hd
      simp only [List.length_cons] at this
      omega
    by_cases h : ((rstripWS rest).isEmpty && isPySpace c) = true
    · simp [rstripWS, h]
    · simp [rstripWS, h, List.dropWhile_cons, hc]

theorem pyStrip_idem (s : List Char) : pyStrip (pyStrip s) = pyStrip s := by
  unfold pyStrip
  rw [dropWhile_rstripWS _ (dropWhile_isPySpace_idem s), rstripWS_idem]

/-- The shape invariant that `normalize_text` establishes: no two adjacent
whitespace characters, and every whitespace character is a plain space. -/
def GoodWS (l : List Char) : Prop :=
  l.Chain' (fun a b => isPySpace a = false ∨ isPySpace b = false) ∧
    ∀ c ∈ l, isPySpace c = true → c = ' '

theorem collapseWSAux_true_head (l : List Char) :
    ∀ h, (collapseWSAux true l).head? = some h → isPySpace h = false := by
  induction l with
  | nil => intro h hh; simp [collapseWSAux] at hh
  | cons c rest ih =>
    intro h hh
    by_cases hc : isPySpace c
    · rw [show collapseWSAux true (c :: rest) = collapseWSAux true rest by
        simp [collapseWSAux, hc]] at hh
      exact ih h hh
    · rw [show collapseWSAux true (c :: rest) = c :: collapseWSAux false rest by
        simp [collapseWSAux, hc]] at hh
      simp only [List.head?_cons, Option.some.injEq] at hh
      rw [← hh]
      cases hcv : isPySpace c
      · rfl
      · exact absurd hcv hc

theorem goodWS_collapseWSAux (l : List Char) : ∀ prev, GoodWS (collapseWSAux prev l) := by
  induction l with
  | nil =>
    intro prev
    have h0 : collapseWSAux prev [] = [] := by cases prev <;> rfl
    rw [h0]
    exact ⟨List.chain'_nil, by simp⟩
  | cons c rest ih =>
    intro prev
    by_cases hc : isPySpace c
    · cases prev with
      | true => simpa [collapseWSAux, hc] using ih true
      | false =>
        rw [show collapseWSAux false (c :: rest) = ' ' :: collapseWSAux true rest by
          simp [collapseWSAux, hc]]
        refine ⟨List.chain'_cons'.2 ⟨?_, (ih true).1⟩, ?_⟩
        · intro y hy
          exact Or.inr (collapseWSAux_true_head rest y hy)
        · intro x hx hxs
          rcases List.mem_cons.1 hx with h1 | h2
          · exact h1
          · exact (ih true).2 x h2 hxs
    · have hcf : isPySpace c = false := by
        cases hcv : isPySpace c
        · rfl
        · exact absurd hcv hc
      rw [show collapseWSAux prev (c :: rest) = c :: collapseWSAux false rest by
        cases prev <;> simp [collapseWSAux, hc]]
      refine ⟨List.chain'_cons'.2 ⟨fun y _ => Or.inl hcf, (ih false).1⟩, ?_⟩
      intro x hx hxs
      rcases List.mem_cons.1 hx with h1 | h2
      · rw [h1] at hxs; rw [hxs] at hcf; cases hcf
      · exact (ih false).2 x h2 hxs

theorem rstripWS_sublist (l : List Char) : (rstripWS l).Sublist l := by
  induction l with
  | nil => exact List.Sublist.refl []
  | cons c rest ih =>
    cases hb : ((rstripWS rest).isEmpty && isPySpace c) with
    | true => simp [rstripWS, hb]
    | false =>
      rw [show rstripWS (c :: rest) = c :: rstripWS rest by simp [rstripWS, hb]]
      exact ih.cons₂ c

theorem rstripWS_head_cases (l : List Char) (h : Char) (t : List Char)
    (he : rstripWS l = h :: t) : ∃ t', l = h :: t' := by
  cases l with
  | nil => cases he
  | cons c rest =>
    cases hb : ((rstripWS rest).isEmpty && isPySpace c) with
    | true => rw [show rstripWS (c :: rest) = [] by simp [rstripWS, hb]] at he; cases he
    | false =>
      rw [show rstripWS (c :: rest) = c :: rstripWS rest by simp [rstripWS, hb]] at he
      exact ⟨rest, by injection he with h1 h2; rw [h1]⟩

theorem chain'_dropWhile {R : Char → Char → Prop} (l : List Char) (h : l.Chain' R) :
    (l.dropWhile isPySpace).Chain' R := by
  induction l with
  | nil => exact h
  | cons c rest ih =>
    by_cases hc : isPySpace c
    · rw [List.dropWhile_cons, if_pos hc]
      exact ih h.tail
    · rwa [List.dropWhile_cons, if_neg hc]

theorem chain'_rstripWS {R : Char → Char → Prop} (l : List Char) (h : l.Chain' R) :
    (rstripWS l).Chain' R := by
  induction l with
  | nil => exact h
  | cons c rest ih =>
    cases hb : ((rstripWS rest).isEmpty && isPySpace c) with
    | true => rw [show rstripWS (c :: rest) = [] by simp [rstripWS, hb]]; exact List.chain'_nil
    | false =>
      rw [show rstripWS (c :: rest) = c :: rstripWS rest by simp [rstripWS, hb]]
      refine List.chain'_cons'.2 ⟨?_, ih h.tail⟩
      intro y hy
      cases hr : rstripWS rest with
      | nil => rw [hr] at hy; cases hy
      | cons y0 t =>
        rw [hr] at hy
        simp only [List.head?_cons, Option.mem_def, Option.some.injEq] at hy
        obtain ⟨t', ht'⟩ := rstripWS_head_cases rest y0 t hr
        rw [ht'] at h
        rw [← hy]
        exact (List.chain'_cons.1 h).1

theorem goodWS_pyStrip (l : List Char) (hg : GoodWS l) : GoodWS (pyStrip l) := by
  unfold pyStrip
  constructor
  · exact chain'_rstripWS _ (chain'_dropWhile _ hg.1)
  · intro c hc hcs
    have hsub : c ∈ l :=
      (List.dropWhile_sublist isPySpace).subset ((rstripWS_sublist _).subset hc)
    exact hg.2 c hsub hcs

theorem collapseWSAux_eq_self (l : List Char) (hg : GoodWS l) :
    collapseWSAux false l = l ∧
      ((∀ h, l.head? = some h → isPySpace h = false) → collapseWSAux true l = l) := by
  induction l with
  | nil => exact ⟨rfl, fun _ => rfl⟩
  | cons c rest ih =>
    have hg' : GoodWS rest := ⟨hg.1.tail, fun x hx => hg.2 x (List.mem_cons_of_mem _ hx)⟩
    by_cases hc : isPySpace c
    · have hcsp : c = ' ' := hg.2 c (List.mem_cons_self _ _) hc
      have hrest_head : ∀ h, rest.head? = some h → isPySpace h = false := by
        intro h hh
        rcases (List.chain'_cons'.1 hg.1).1 h hh with h1 | h2
        · rw [hc] at h1; cases h1
        · exact h2
      constructor
      · rw [show collapseWSAux false (c :: rest) = ' ' :: collapseWSAux true rest by
          simp [collapseWSAux, hc]]
        rw [(ih hg').2 hrest_head, hcsp]
      · intro hhead
        have := hhead c rfl
        rw [hc] at this; cases this
    · have hcf : isPySpace c = false := by
        cases hcv : isPySpace c
        · rfl
        · exact absurd hcv hc
      have hbody : ∀ prev, collapseWSAux prev (c :: rest) = c :: collapseWSAux false rest := by
        intro prev; cases prev <;> simp [collapseWSAux, hc]
      exact ⟨by rw [hbody false, (ih hg').1],
        fun _ => by rw [hbody true, (ih hg').1]⟩

theorem goodWS_normalize_text (s : List Char) : GoodWS (normalize_text s) :=
  goodWS_pyStrip _ (goodWS_collapseWSAux s false)

/-- Claim C8: `normalize` is idempotent: for every string `x`,
`normalize(normalize(x)) = normalize(x)`. -/
theorem normalize_text_idempotent (s : List Char) :
    normalize_text (normalize_text s) = normalize_text s := by
  have hg : GoodWS (normalize_text s) := goodWS_normalize_text s
  show pyStrip (collapseWSAux false (normalize_text s)) = normalize_text s
  rw [(collapseWSAux_eq_self _ hg).1]
  show pyStrip (pyStrip (collapseWSAux false s)) = normalize_text s
  rw [pyStrip_idem]
  rfl

/-! ## Chunker lemmas, towards the reassembly property (C4) -/

/-- A sentence as produced by `split_sentences`: non-empty and already
stripped on both sides. -/
def StrippedNE (s : List Char) : Prop :=
  s ≠ [] ∧ s.dropWhile isPySpace = s ∧ rstripWS s = s

theorem pyStrip_strippedNE (x : List Char) (h : pyStrip x ≠ []) : StrippedNE (pyStrip x) := by
  refine ⟨h, ?_, ?_⟩
  · exact dropWhile_rstripWS _ (dropWhile_isPySpace_idem x)
  · exact rstripWS_idem _

theorem split_sentences_strippedNE (text : List Char) :
    ∀ s ∈ split_sentences text, StrippedNE s := by
  intro s hs
  unfold split_sentences at hs
  have h1 := List.of_mem_filter hs
  have h2 := List.mem_of_mem_filter hs
  obtain ⟨r, _, hr⟩ := List.mem_map.1 h2
  have hne : s ≠ [] := by
    intro hnil
    rw [hnil] at h1
    simp at h1
  rw [← hr]
  exact pyStrip_strippedNE r (by rw [hr]; exact hne)

theorem dropWhile_self_head (c : Char) (rest : List Char)
    (hd : (c :: rest).dropWhile isPySpace = c :: rest) : isPySpace c = false := by
  cases hcv : isPySpace c
  · rfl
  · rw [List.dropWhile_cons, if_pos hcv] at hd
    have hlen : (rest.dropWhile isPySpace).length ≤ rest.length :=
      (List.dropWhile_sublist _).length_le
    have := congrArg List.length hd
    simp only [List.length_cons] at this
    omega

theorem joinSpace_cons_of_ne (s : List Char) (l : List (List Char)) (h : l ≠ []) :
    joinSpace (s :: l) = s ++ ' ' :: joinSpace l := by
  cases l with
  | nil => exact absurd rfl h
  | cons a t => rfl

theorem joinSpace_ne_nil (l : List (List Char)) (hl : l ≠ []) (h : ∀ s ∈ l, s ≠ []) :
    joinSpace l ≠ [] := by
  cases l with
  | nil => exact absurd rfl hl
  | cons s t =>
    cases t with
    | nil => exact h s (List.mem_cons_self _ _)
    | cons a t' =>
      rw [joinSpace_cons_of_ne s (a :: t') (by simp)]
      intro hab
      have := congrArg List.length hab
      simp only [List.length_append, List.length_cons, List.length_nil] at this
      omega

theorem joinSpace_append (l1 l2 : List (List Char)) (h1 : l1 ≠ []) (h2 : l2 ≠ []) :
    joinSpace (l1 ++ l2) = joinSpace l1 ++ ' ' :: joinSpace l2 := by
  induction l1 with
  | nil => exact absurd rfl h1
  | cons s t ih =>
    cases t with
    | nil =>
      rw [show ([s] ++ l2) = s :: l2 by rfl, joinSpace_cons_of_ne s l2 h2]
      rfl
    | cons a t' =>
      rw [show ((s :: a :: t') ++ l2) = s :: ((a :: t') ++ l2) by rfl]
      rw [joinSpace_cons_of_ne s ((a :: t') ++ l2) (by simp),
        joinSpace_cons_of_ne s (a :: t') (by simp), ih (by simp) ]
      simp

theorem dropWhile_joinSpace (l : List (List Char)) (h : ∀ s ∈ l, StrippedNE s) :
    (joinSpace l).dropWhile isPySpace = joinSpace l := by
  cases l with
  | nil => rfl
  | cons s t =>
    obtain ⟨hne, hdw, _⟩ := h s (List.mem_cons_self _ _)
    obtain ⟨c, cs, hc⟩ := List.exists_cons_of_ne_nil hne
    have hcf : isPySpace c = false := dropWhile_self_head c cs (by rw [← hc]; exact hdw)
    cases t with
    | nil => exact hdw
    | cons a t' =>
      rw [joinSpace_cons_of_ne s (a :: t') (by simp), hc, List.cons_append,
        List.dropWhile_cons, if_neg (by simp [hcf])]

theorem rstripWS_append_fix (a b : List Char) (hb : rstripWS b = b) (hbne : b ≠ []) :
    rstripWS (a ++ b) = a ++ b := by
  induction a with
  | nil => simpa using hb
  | cons c a' ih =>
    rw [List.cons_append]
    have hne : (rstripWS (a' ++ b)).isEmpty = false := by
      rw [ih]
      cases hab : (a' ++ b).isEmpty
      · rfl
      · exact absurd (List.append_eq_nil.1 (List.isEmpty_iff.1 hab)).2 hbne
    rw [show rstripWS (c :: (a' ++ b)) = c :: rstripWS (a' ++ b) by
      simp [rstripWS, hne]]
    rw [ih]

theorem rstripWS_joinSpace (l : List (List Char)) (h : ∀ s ∈ l, StrippedNE s) :
    rstripWS (joinSpace l) = joinSpace l := by
  induction l with
  | nil => rfl
  | cons s t ih =>
    cases t with
    | nil => exact (h s (List.mem_cons_self _ _)).2.2
    | cons a t' =>
      rw [joinSpace_cons_of_ne s (a :: t') (by simp)]
      have hjt : rstripWS (joinSpace (a :: t')) = joinSpace (a :: t') :=
        ih (fun x hx => h x (List.mem_cons_of_mem _ hx))
      have hjtne : joinSpace (a :: t') ≠ [] :=
        joinSpace_ne_nil _ (by simp) (fun x hx => (h x (List.mem_cons_of_mem _ hx)).1)
      apply rstripWS_append_fix
      · rw [show rstripWS (' ' :: joinSpace (a :: t')) = ' ' :: joinSpace (a :: t') by
          simp [rstripWS, hjt, List.isEmpty_iff, hjtne]]
      · simp

theorem pyStrip_joinSpace (l : List (List Char)) (h : ∀ s ∈ l, StrippedNE s) :
    pyStrip (joinSpace l) = joinSpace l := by
  unfold pyStrip
  rw [dropWhile_joinSpace l h, rstripWS_joinSpace l h]

theorem chunkGo_ne_nil_of (mc : Nat) :
    ∀ sents current len, current ≠ [] ∨ sents ≠ [] →
      chunkGo mc sents current len ≠ [] := by
  intro sents
  induction sents with
  | nil =>
    intro current len h
    rcases h with h | h
    · simp [chunkGo, h]
    · exact absurd rfl h
  | cons s rest ih =>
    intro current len _
    by_cases hcond : mc < len + s.length ∧ current ≠ []
    · simp [chunkGo, hcond]
    · rw [show chunkGo mc (s :: rest) current len =
          chunkGo mc rest (current ++ [s]) (len + s.length + 1) by
        simp [chunkGo, hcond]]
      exact ih (current ++ [s]) (len + s.length + 1) (Or.inl (by simp))

theorem chunkGo_elems_ne_nil (mc : Nat) :
    ∀ sents current len, (∀ s ∈ current, StrippedNE s) → (∀ s ∈ sents, StrippedNE s) →
      ∀ c ∈ chunkGo mc sents current len, c ≠ [] := by
  intro sents
  induction sents with
  | nil =>
    intro current len hc _ c hmem
    by_cases hcur : current = []
    · rw [show chunkGo mc [] current len = [] by simp [chunkGo, hcur]] at hmem
      cases hmem
    · rw [show chunkGo mc [] current len = [pyStrip (joinSpace current)] by
        simp [chunkGo, hcur]] at hmem
      rcases List.mem_singleton.1 hmem with h
      rw [h, pyStrip_joinSpace current hc]
      exact joinSpace_ne_nil current hcur (fun x hx => (hc x hx).1)
  | cons s rest ih =>
    intro current len hc hs c hmem
    have hsne : StrippedNE s := hs s (List.mem_cons_self _ _)
    have hrest : ∀ x ∈ rest, StrippedNE x := fun x hx => hs x (List.mem_cons_of_mem _ hx)
    by_cases hcond : mc < len + s.length ∧ current ≠ []
    · rw [show chunkGo mc (s :: rest) current len =
          pyStrip (joinSpace current) :: chunkGo mc rest [s] (s.length + 1) by
        simp [chunkGo, hcond]] at hmem
      rcases List.mem_cons.1 hmem with h | h
      · rw [h, pyStrip_joinSpace current hc]
        exact joinSpace_ne_nil current hcond.2 (fun x hx => (hc x hx).1)
      · exact ih [s] (s.length + 1) (by simpa using hsne) hrest c h
    · rw [show chunkGo mc (s :: rest) current len =
          chunkGo mc rest (current ++ [s]) (len + s.length + 1) by
        simp [chunkGo, hcond]] at hmem
      refine ih (current ++ [s]) (len + s.length + 1) ?_ hrest c hmem
      intro x hx
      rcases List.mem_append.1 hx with h | h
      · exact hc x h
      · rw [List.mem_singleton.1 h]; exact hsne

theorem chunkGo_joinSpace (mc : Nat) :
    ∀ sents current len, (∀ s ∈ current, StrippedNE s) → (∀ s ∈ sents, StrippedNE s) →
      joinSpace (chunkGo mc sents current len) = joinSpace (current ++ sents) := by
  intro sents
  induction sents with
  | nil =>
    intro current len hc _
    by_cases hcur : current = []
    · simp [chunkGo, hcur]
    · rw [show chunkGo mc [] current len = [pyStrip (joinSpace current)] by
        simp [chunkGo, hcur]]
      rw [show joinSpace [pyStrip (joinSpace current)] = pyStrip (joinSpace current) by rfl]
      rw [pyStrip_joinSpace current hc, List.append_nil]
  | cons s rest ih =>
    intro current len hc hs
    have hsne : StrippedNE s := hs s (List.mem_cons_self _ _)
    have hrest : ∀ x ∈ rest, StrippedNE x := fun x hx => hs x (List.mem_cons_of_mem _ hx)
    by_cases hcond : mc < len + s.length ∧ current ≠ []
    · rw [show chunkGo mc (s :: rest) current len =
          pyStrip (joinSpace current) :: chunkGo mc rest [s] (s.length + 1) by
        simp [chunkGo, hcond]]
      have htail_ne : chunkGo mc rest [s] (s.length + 1) ≠ [] :=
        chunkGo_ne_nil_of mc rest [s] (s.length + 1) (Or.inl (by simp))
      rw [joinSpace_cons_of_ne _ _ htail_ne, pyStrip_joinSpace current hc,
        ih [s] (s.length + 1) (by simpa using hsne) hrest]
      rw [show ([s] ++ rest) = s :: rest by rfl,
        ← joinSpace_append current (s :: rest) hcond.2 (by simp)]
    · rw [show chunkGo mc (s :: rest) current len =
          chunkGo mc rest (current ++ [s]) (len + s.length + 1) by
        simp [chunkGo, hcond]]
      have hcur' : ∀ x ∈ current ++ [s], StrippedNE x := by
        intro x hx
        rcases List.mem_append.1 hx with h | h
        · exact hc x h
        · rw [List.mem_singleton.1 h]; exact hsne
      rw [ih (current ++ [s]) (len + s.length + 1) hcur' hrest]
      rw [List.append_assoc]
      rfl

theorem chunkGo_oversize (mc : Nat) :
    ∀ sents current len,
      (∀ s ∈ current, StrippedNE s) → (∀ s ∈ sents, StrippedNE s) →
      (current = [] → len = 0) →
      (current ≠ [] → len = (joinSpace current).length + 1) →
      (2 ≤ current.length → (joinSpace current).length ≤ mc) →
      ∀ c ∈ chunkGo mc sents current len, mc < c.length → c ∈ current ++ sents := by
  intro sents
  induction sents with
  | nil =>
    intro current len hc _ _ _ hbig c hmem hclen
    by_cases hcur : current = []
    · rw [show chunkGo mc [] current len = [] by simp [chunkGo, hcur]] at hmem
      cases hmem
    · rw [show chunkGo mc [] current len = [pyStrip (joinSpace current)] by
        simp [chunkGo, hcur]] at hmem
      rw [List.mem_singleton.1 hmem, pyStrip_joinSpace current hc] at hclen ⊢
      have h1 : current.length = 1 := by
        have h0 : current.length ≠ 0 := by
          intro hz; exact hcur (List.length_eq_zero.1 hz)
        rcases Nat.lt_or_ge current.length 2 with h | h
        · omega
        · exact absurd (hbig h) (by omega)
      obtain ⟨a, ha⟩ := List.length_eq_one.1 h1
      rw [ha] at hclen ⊢
      rw [show joinSpace [a] = a by rfl]
      simp
  | cons s rest ih =>
    intro current len hc hs hlen0 hlen1 hbig c hmem hclen
    have hsne : StrippedNE s := hs s (List.mem_cons_self _ _)
    have hrest : ∀ x ∈ rest, StrippedNE x := fun x hx => hs x (List.mem_cons_of_mem _ hx)
    by_cases hcond : mc < len + s.length ∧ current ≠ []
    · rw [show chunkGo mc (s :: rest) current len =
          pyStrip (joinSpace current) :: chunkGo mc rest [s] (s.length + 1) by
        simp [chunkGo, hcond]] at hmem
      rcases List.mem_cons.1 hmem with h | h
      · rw [h, pyStrip_joinSpace current hc] at hclen ⊢
        have h1 : current.length = 1 := by
          have h0 : current.length ≠ 0 := by
            intro hz; exact hcond.2 (List.length_eq_zero.1 hz)
          rcases Nat.lt_or_ge current.length 2 with hlt | hge
          · omega
          · exact absurd (hbig hge) (by omega)
        obtain ⟨a, ha⟩ := List.length_eq_one.1 h1
        rw [ha] at hclen ⊢
        rw [show joinSpace [a] = a by rfl]
        exact List.mem_append.2 (Or.inl (List.mem_singleton.2 rfl))
      · have := ih [s] (s.length + 1) (by simpa using hsne) hrest
          (by intro hx; cases hx) (fun _ => by rw [show joinSpace [s] = s by rfl])
          (by intro hx; simp at hx) c h hclen
        rcases List.mem_append.1 this with h2 | h2
        · rw [List.mem_singleton.1 h2]
          exact List.mem_append.2 (Or.inr (List.mem_cons_self _ _))
        · exact List.mem_append.2 (Or.inr (List.mem_cons_of_mem _ h2))
    · rw [show chunkGo mc (s :: rest) current len =
          chunkGo mc rest (current ++ [s]) (len + s.length + 1) by
        simp [chunkGo, hcond]] at hmem
      have hcur' : ∀ x ∈ current ++ [s], StrippedNE x := by
        intro x hx
        rcases List.mem_append.1 hx with h | h
        · exact hc x h
        · rw [List.mem_singleton.1 h]; exact hsne
      have hlen1' : current ++ [s] ≠ [] → len + s.length + 1 = (joinSpace (current ++ [s])).length + 1 := by
        intro _
        by_cases hcur : current = []
        · rw [hcur, hlen0 hcur]
          rw [show (([] : List (List Char)) ++ [s]) = [s] by rfl,
            show joinSpace [s] = s by rfl]
          omega
        · rw [joinSpace_append current [s] hcur (by simp), hlen1 hcur]
          simp only [List.length_append, List.length_cons]
          rw [show joinSpace [s] = s by rfl]
          omega
      have hbig' : 2 ≤ (current ++ [s]).length → (joinSpace (current ++ [s])).length ≤ mc := by
        intro h2
        have hcur : current ≠ [] := by
          intro hz
          rw [hz] at h2
          simp at h2
        have hnotflush : ¬ mc < len + s.length := fun hlt => hcond ⟨hlt, hcur⟩
        rw [joinSpace_append current [s] hcur (by simp)]
        simp only [List.length_append, List.length_cons]
        rw [show joinSpace [s] = s by rfl]
        have := hlen1 hcur
        omega
      have := ih (current ++ [s]) (len + s.length + 1) hcur' hrest
        (by intro hx; simp at hx) hlen1' hbig' c hmem hclen
      rcases List.mem_append.1 this with h2 | h2
      · rcases List.mem_append.1 h2 with h3 | h3
        · exact List.mem_append.2 (Or.inl h3)
        · rw [List.mem_singleton.1 h3]
          exact List.mem_append.2 (Or.inr (List.mem_cons_self _ _))
      · exact List.mem_append.2 (Or.inr (List.mem_cons_of_mem _ h2))

/-- Claim C4: for every text and `maxChars > 0`, joining the chunks
returned by `chunk_text` with a single space reproduces the join of
`split_sentences text`; every chunk is non-empty; and an oversize chunk is
itself one of the sentences (a single sentence longer than `maxChars`). -/
theorem chunk_text_spec (text : List Char) (mc : Nat) (_hmc : 0 < mc) :
    joinSpace (chunk_text text mc) = joinSpace (split_sentences text) ∧
      (∀ c ∈ chunk_text text mc, c ≠ []) ∧
      (∀ c ∈ chunk_text text mc, mc < c.length → c ∈ split_sentences text) := by
  have hs := split_sentences_strippedNE text
  have hne := chunkGo_elems_ne_nil mc (split_sentences text) [] 0 (by simp) hs
  have hfilter : chunk_text text mc = chunkGo mc (split_sentences text) [] 0 := by
    unfold chunk_text
    apply List.filter_eq_self.2
    intro a ha
    simp [List.isEmpty_iff, hne a ha]
  refine ⟨?_, ?_, ?_⟩
  · rw [hfilter, chunkGo_joinSpace mc _ [] 0 (by simp) hs]
    rfl
  · rw [hfilter]; exact hne
  · rw [hfilter]
    intro c hc hclen
    have := chunkGo_oversize mc (split_sentences text) [] 0 (by simp) hs
      (fun _ => rfl) (by intro hx; exact absurd rfl hx) (by intro hx; simp at hx)
      c hc hclen
    simpa using this

/-- Witness for C4 at a concrete text and bound. -/
theorem chunk_text_spec_witness :
    (0:Nat) < 10 ∧
      joinSpace (chunk_text ("Hi there. Bye.".data) 10) =
        joinSpace (split_sentences ("Hi there. Bye.".data)) :=
  ⟨by decide, (chunk_text_spec ("Hi there. Bye.".data) 10 (by decide)).1⟩

/-! ## Data model (lines 45-58) -/

/-- `PageText` dataclass (lines 45-50). -/
structure PageText where
  document : List Char
  page_number : Nat
  text : List Char
  tokens : List (List Char)
deriving DecidableEq

/-- `Chunk` dataclass (lines 53-58); the embedding is a vector of floats,
modelled as real numbers. -/
structure Chunk where
  document : List Char
  page_number : Nat
  text : List Char
  embedding : List ℝ

/-! ## Similarity Ranker: `cosine` (lines 138-146) -/

/-- `sum(x * y for x, y in zip(a, b))`. -/
noncomputable def dotProd (a b : List ℝ) : ℝ :=
  ((a.zip b).map (fun p => p.1 * p.2)).sum

/-- `sum(x * x for x in a)`, the square of the Euclidean norm. -/
noncomputable def sumSq (a : List ℝ) : ℝ :=
  (a.map (fun x => x * x)).sum

/-- `cosine` (lines 138-146): dot product over the product of Euclidean
norms, with the two zero-guards of the source. -/
noncomputable def cosine (a b : List ℝ) : ℝ :=
  if a = [] ∨ b = [] ∨ a.length ≠ b.length then 0
  else
    if Real.sqrt (sumSq a) = 0 ∨ Real.sqrt (sumSq b) = 0 then 0
    else dotProd a b / (Real.sqrt (sumSq a) * Real.sqrt (sumSq b))

theorem sumSq_cons (x : ℝ) (t : List ℝ) : sumSq (x :: t) = x * x + sumSq t := by
  simp [sumSq]

theorem sumSq_nonneg (a : List ℝ) : 0 ≤ sumSq a := by
  apply List.sum_nonneg
  intro x hx
  obtain ⟨y, _, hy⟩ := List.mem_map.1 hx
  rw [← hy]
  exact mul_self_nonneg y

theorem dotProd_self (a : List ℝ) : dotProd a a = sumSq a := by
  induction a with
  | nil => rfl
  | cons x t ih =>
    show ((((x, x) :: t.zip t)).map (fun p => p.1 * p.2)).sum = sumSq (x :: t)
    rw [sumSq_cons]
    simp only [List.map_cons, List.sum_cons]
    rw [show (((t.zip t)).map (fun p => p.1 * p.2)).sum = dotProd t t by rfl, ih]

theorem sumSq_pos_of_mem (a : List ℝ) (x : ℝ) (hx : x ∈ a) (hxne : x ≠ 0) :
    0 < sumSq a := by
  induction a with
  | nil => cases hx
  | cons y t ih =>
    rw [sumSq_cons]
    rcases List.mem_cons.1 hx with h | h
    · rw [← h]
      exact add_pos_of_pos_of_nonneg (mul_self_pos.2 hxne) (sumSq_nonneg t)
    · exact add_pos_of_nonneg_of_pos (mul_self_nonneg y) (ih h)

/-- Claim C7: `cosine v v = 1` for non-zero `v`; `cosine v 0 = 0`; and the
empty/zero-norm guards return `0` rather than dividing by zero. -/
theorem cosine_spec (v : List ℝ) :
    ((∃ x ∈ v, x ≠ 0) → cosine v v = 1) ∧
      cosine v (List.replicate v.length 0) = 0 ∧
      (∀ w : List ℝ,
        (v = [] ∨ w = [] ∨ Real.sqrt (sumSq v) = 0 ∨ Real.sqrt (sumSq w) = 0) →
        cosine v w = 0) := by
  refine ⟨?_, ?_, ?_⟩
  · rintro ⟨x, hx, hxne⟩
    have hvne : v ≠ [] := by
      intro h; rw [h] at hx; cases hx
    have hpos : 0 < sumSq v := sumSq_pos_of_mem v x hx hxne
    have hsne : Real.sqrt (sumSq v) ≠ 0 := ne_of_gt (Real.sqrt_pos.2 hpos)
    unfold cosine
    rw [if_neg (by simp [hvne]), if_neg (by simp [hsne])]
    rw [dotProd_self, Real.mul_self_sqrt (le_of_lt hpos)]
    exact div_self (ne_of_gt hpos)
  · by_cases hvnil : v = []
    · unfold cosine
      rw [if_pos (Or.inl hvnil)]
    · have hz : sumSq (List.replicate (v.length) (0:ℝ)) = 0 := by
        unfold sumSq
        rw [List.map_replicate, mul_zero, List.sum_replicate, smul_zero]
      have hguard : ¬(v = [] ∨ List.replicate v.length (0:ℝ) = [] ∨
          v.length ≠ (List.replicate v.length (0:ℝ)).length) := by
        rintro (h | h | h)
        · exact hvnil h
        · exact hvnil (List.length_eq_zero.1 (by simpa using congrArg List.length h))
        · exact h (by rw [List.length_replicate])
      unfold cosine
      rw [if_neg hguard, if_pos (Or.inr (by rw [hz, Real.sqrt_zero]))]
  · intro w h
    by_cases hguard : v = [] ∨ w = [] ∨ v.length ≠ w.length
    · unfold cosine
      rw [if_pos hguard]
    · rcases h with h | h | h | h
      · exact absurd (Or.inl h) hguard
      · exact absurd (Or.inr (Or.inl h)) hguard
      · unfold cosine
        rw [if_neg hguard, if_pos (Or.inl h)]
      · unfold cosine
        rw [if_neg hguard, if_pos (Or.inr h)]

/-- Witness for C7: the one-dimensional unit vector. -/
theorem cosine_spec_witness :
    (∃ x ∈ [(1:ℝ)], x ≠ 0) ∧ cosine [(1:ℝ)] [(1:ℝ)] = 1 :=
  ⟨⟨1, List.mem_singleton.2 rfl, one_ne_zero⟩,
    (cosine_spec [(1:ℝ)]).1 ⟨1, List.mem_singleton.2 rfl, one_ne_zero⟩⟩

/-- Claim C10: a dimension mismatch is mapped to similarity `0`. -/
theorem cosine_length_mismatch (a b : List ℝ) (h : a.length ≠ b.length) :
    cosine a b = 0 := by
  unfold cosine
  rw [if_pos (Or.inr (Or.inr h))]

/-- Witness for C10 at concrete mismatched vectors. -/
theorem cosine_length_mismatch_witness :
    ([(1:ℝ)].length ≠ ([] : List ℝ).length) ∧ cosine [(1:ℝ)] [] = 0 :=
  ⟨by simp, cosine_length_mismatch [(1:ℝ)] [] (by simp)⟩

/-! ## Similarity Ranker: scoring, sorting and top-K selection
(lines 273-281 of `answer_question`) -/

/-- `scored_chunks` before sorting (lines 273-276): one `(score, chunk)`
pair per corpus chunk, in corpus order. -/
noncomputable def scoreChunks (qvec : List ℝ) (chunks : List Chunk) : List (ℝ × Chunk) :=
  chunks.map (fun c => (cosine qvec c.embedding, c))

/-- The descending-by-score order used by
`scored_chunks.sort(key=..., reverse=True)`. -/
def scoreGE (a b : ℝ × Chunk) : Prop := b.1 ≤ a.1

noncomputable instance : DecidableRel scoreGE :=
  fun a b => Real.decidableLE b.1 a.1

instance : IsTotal (ℝ × Chunk) scoreGE := ⟨fun a b => le_total b.1 a.1⟩

instance : IsTrans (ℝ × Chunk) scoreGE := ⟨fun _ _ _ hab hbc => le_trans hbc hab⟩

/-- The in-place stable sort of line 277, modelled as a stable insertion
sort under the descending order. -/
noncomputable def sortScored (l : List (ℝ × Chunk)) : List (ℝ × Chunk) :=
  List.insertionSort scoreGE l

/-- `top_chunks` (line 279): the first `TOP_K` sorted entries, restricted
to strictly positive score, projected to their chunks. -/
noncomputable def topChunks (qvec : List ℝ) (chunks : List Chunk) : List Chunk :=
  (((sortScored (scoreChunks qvec chunks)).take TOP_K).filter
    (fun p => decide (0 < p.1))).map Prod.snd

theorem mem_sortScored (qvec : List ℝ) (chunks : List Chunk) (p : ℝ × Chunk)
    (hp : p ∈ sortScored (scoreChunks qvec chunks)) :
    p.1 = cosine qvec p.2.embedding ∧ p.2 ∈ chunks := by
  have hp' : p ∈ scoreChunks qvec chunks :=
    (List.perm_insertionSort scoreGE _).mem_iff.1 hp
  obtain ⟨c, hc, he⟩ := List.mem_map.1 hp'
  rw [← he]
  exact ⟨rfl, hc⟩

/-- Claim C3: the scored list is sorted non-increasing by score; the
selection keeps exactly the strictly-positive entries of the first
`TOP_K = 3` sorted entries; and a chunk scoring zero or below is never
selected. -/
theorem ranking_spec (qvec : List ℝ) (chunks : List Chunk) :
    (sortScored (scoreChunks qvec chunks)).Sorted scoreGE ∧
      topChunks qvec chunks =
        (((sortScored (scoreChunks qvec chunks)).take TOP_K).filter
          (fun p => decide (0 < p.1))).map Prod.snd ∧
      (∀ c ∈ topChunks qvec chunks, 0 < cosine qvec c.embedding) ∧
      (topChunks qvec chunks).length ≤ TOP_K ∧
      ∀ c ∈ chunks, cosine qvec c.embedding ≤ 0 → c ∉ topChunks qvec chunks := by
  have hpos : ∀ c ∈ topChunks qvec chunks, 0 < cosine qvec c.embedding := by
    intro c hc
    obtain ⟨p, hp, he⟩ := List.mem_map.1 hc
    have hf := List.mem_filter.1 hp
    have htake : p ∈ sortScored (scoreChunks qvec chunks) :=
      List.mem_of_mem_take hf.1
    have hscore := (mem_sortScored qvec chunks p htake).1
    have h01 : 0 < p.1 := of_decide_eq_true hf.2
    rw [← he, ← hscore]
    exact h01
  refine ⟨List.sorted_insertionSort scoreGE _, rfl, hpos, ?_, ?_⟩
  · calc (topChunks qvec chunks).length
        = (((sortScored (scoreChunks qvec chunks)).take TOP_K).filter
            (fun p => decide (0 < p.1))).length := by rw [topChunks, List.length_map]
      _ ≤ ((sortScored (scoreChunks qvec chunks)).take TOP_K).length :=
          List.length_filter_le _ _
      _ ≤ TOP_K := List.length_take_le _ _
  · intro c _ hle hmem
    exact absurd (hpos c hmem) (not_lt.2 hle)

/-! ## Document Loader: `load_documents` (lines 149-190) -/

/-- One candidate PDF file as the loader sees it: its file name and the
outcome of parsing it.  `parsed = none` models a `PdfReader` failure
(lines 164-167 and 169-186 abort via `fatal_pdf_error`); `parsed = some
raws` models a successful parse with the raw `extract_text` output of each
page in order (a per-page extraction exception already yields the empty
string at lines 171-174, so raw pages are plain strings). -/
structure PdfFile where
  name : List Char
  parsed : Option (List (List Char))
deriving DecidableEq

/-- The per-file page loop (lines 169-184): pages whose text normalizes to
the empty string are dropped; the rest become `PageText` values with
1-based page numbers. -/
def pagesOfFile (f : PdfFile) : Option (List PageText) :=
  match f.parsed with
  | none => none
  | some raws => some (raws.enum.filterMap (fun p =>
      if normalize_text p.2 = [] then none
      else some ⟨f.name, p.1 + 1, normalize_text p.2, tokenize (normalize_text p.2)⟩))

/-- Sequential processing of all files in sorted order, failing at the
first unparseable file (fail-fast, lines 163-186). -/
def loadPages : List PdfFile → Option (List PageText)
  | [] => some []
  | f :: fs =>
    match pagesOfFile f, loadPages fs with
    | some ps, some rest => some (ps ++ rest)
    | _, _ => none

/-- `load_documents` (lines 149-190).  `dirOk` models the knowledge-
directory existence/readability check of lines 151-153; `files` is the
lexicographically sorted list of `*.pdf` files found there (line 158); the
pypdf import (lines 35-42, 155-156) is assumed available.  `none` models
`fatal_pdf_error`, i.e. aborted startup. -/
def load_documents (dirOk : Bool) (files : List PdfFile) : Option (List PageText) :=
  if !dirOk then none
  else if files = [] then none
  else
    match loadPages files with
    | none => none
    | some pages => if pages = [] then none else some pages


theorem loadPages_eq_none (files : List PdfFile) :
    loadPages files = none ↔ ∃ f ∈ files, f.parsed = none := by
  induction files with
  | nil => simp [loadPages]
  | cons f fs ih =>
    constructor
    · intro h
      cases hp : f.parsed with
      | none => exact ⟨f, List.mem_cons_self _ _, hp⟩
      | some raws =>
        cases hl : loadPages fs with
        | none =>
          obtain ⟨g, hg, hgp⟩ := ih.1 hl
          exact ⟨g, List.mem_cons_of_mem _ hg, hgp⟩
        | some rest =>
          rw [loadPages] at h
          simp [pagesOfFile, hp, hl] at h
    · rintro ⟨g, hg, hgp⟩
      rcases List.mem_cons.1 hg with h | h
      · subst h
        simp [loadPages, pagesOfFile, hgp]
      · have hnone : loadPages fs = none := ih.2 ⟨g, h, hgp⟩
        cases hp : pagesOfFile f with
        | none => simp [loadPages, hp]
        | some ps => simp [loadPages, hp, hnone]

theorem forall_mem_enum_snd {α : Type} (raws : List α) (P : α → Prop) :
    (∀ p ∈ raws.enum, P p.2) ↔ ∀ r ∈ raws, P r := by
  constructor
  · intro h r hr
    rw [← List.enum_map_snd raws] at hr
    obtain ⟨p, hp, he⟩ := List.mem_map.1 hr
    rw [← he]
    exact h p hp
  · intro h p hp
    apply h
    have : p.2 ∈ raws.enum.map Prod.snd := List.mem_map.2 ⟨p, hp, rfl⟩
    rwa [List.enum_map_snd] at this

theorem pagesOfFile_empty (f : PdfFile) (ps : List PageText)
    (hp : pagesOfFile f = some ps) :
    ps = [] ↔ ∀ raws, f.parsed = some raws → ∀ r ∈ raws, normalize_text r = [] := by
  cases hf : f.parsed with
  | none => rw [pagesOfFile, hf] at hp; cases hp
  | some raws =>
    rw [pagesOfFile, hf] at hp
    injection hp with hp
    constructor
    · intro hnil raws' hraws'
      injection hraws' with he
      subst he
      rw [hnil] at hp
      have hall := List.filterMap_eq_nil_iff.1 hp
      apply (forall_mem_enum_snd raws (fun r => normalize_text r = [])).1
      intro p hpe
      by_cases hz : normalize_text p.2 = []
      · exact hz
      · have h2 := hall p hpe
        rw [if_neg hz] at h2
        cases h2
    · intro hall
      rw [← hp]
      apply List.filterMap_eq_nil_iff.2
      intro p hpe
      have hr : p.2 ∈ raws := by
        have h3 : p.2 ∈ raws.enum.map Prod.snd := List.mem_map.2 ⟨p, hpe, rfl⟩
        rwa [List.enum_map_snd] at h3
      rw [if_pos (hall raws rfl p.2 hr)]

theorem loadPages_empty (files : List PdfFile) (pages : List PageText)
    (hl : loadPages files = some pages) :
    pages = [] ↔
      ∀ f ∈ files, ∀ raws, f.parsed = some raws → ∀ r ∈ raws, normalize_text r = [] := by
  induction files generalizing pages with
  | nil =>
    rw [show loadPages [] = some [] from rfl] at hl
    injection hl with hl
    simp [← hl]
  | cons f fs ih =>
    cases hp : pagesOfFile f with
    | none => rw [loadPages, hp] at hl; cases hl
    | some ps =>
      cases hrest : loadPages fs with
      | none => rw [loadPages, hp, hrest] at hl; cases hl
      | some rest =>
        rw [loadPages, hp, hrest] at hl
        injection hl with hl
        rw [← hl]
        constructor
        · intro hnil g hg
          have h2 := List.append_eq_nil.1 hnil
          rcases List.mem_cons.1 hg with h | h
          · subst h
            exact (pagesOfFile_empty g ps hp).1 h2.1
          · exact ((ih rest hrest).1 h2.2) g h
        · intro hall
          rw [List.append_eq_nil]
          constructor
          · exact (pagesOfFile_empty f ps hp).2 (hall f (List.mem_cons_self _ _))
          · exact (ih rest hrest).2 (fun g hg => hall g (List.mem_cons_of_mem _ hg))

/-- Claim C2: `load_documents` fails (returns `none`, aborting startup)
exactly when the directory is bad, no file is found, some file fails to
parse, or every parsed page normalizes to the empty string; otherwise it
returns an ordered sequence of `PageText`.  Empty pages alone never cause
failure. -/
theorem load_documents_spec (dirOk : Bool) (files : List PdfFile) :
    load_documents dirOk files = none ↔
      (dirOk = false ∨ files = [] ∨ (∃ f ∈ files, f.parsed = none) ∨
        ∀ f ∈ files, ∀ raws, f.parsed = some raws → ∀ r ∈ raws,
          normalize_text r = []) := by
  cases dirOk with
  | false => simp [load_documents]
  | true =>
    by_cases hf : files = []
    · simp [load_documents, hf]
    · cases hl : loadPages files with
      | none =>
        have hred : load_documents true files = none := by
          simp [load_documents, hf, hl]
        rw [hred]
        constructor
        · intro _
          exact Or.inr (Or.inr (Or.inl ((loadPages_eq_none files).1 hl)))
        · intro _; rfl
      | some pages =>
        by_cases hpg : pages = []
        · have hred : load_documents true files = none := by
            simp [load_documents, hf, hl, hpg]
          rw [hred]
          constructor
          · intro _
            exact Or.inr (Or.inr (Or.inr ((loadPages_empty files pages hl).1 hpg)))
          · intro _; rfl
        · have hred : load_documents true files = some pages := by
            simp [load_documents, hf, hl, hpg]
          rw [hred]
          constructor
          · intro h; cases h
          · rintro (h | h | h | h)
            · cases h
            · exact absurd h hf
            · rw [(loadPages_eq_none files).2 h] at hl; cases hl
            · exact absurd ((loadPages_empty files pages hl).2 h) hpg

/-! ## Answer Synthesizer: `generate_answer` and `answer_question`
(lines 234-296) -/

/-- The refusal literal of line 263 (empty token list). -/
def refusalNoTokens : List Char :=
  "I cannot answer based on the documents.".data

/-- The refusal literal of line 266 (empty corpus index). -/
def refusalEmptyCorpus : List Char :=
  "I cannot answer based on the documents.".data

/-- The refusal literal of line 270 (embedding gateway failure). -/
def refusalEmbedFail : List Char :=
  "I cannot answer based on the documents.".data

/-- The refusal literal of line 281 (no positively scored chunk). -/
def refusalNoRelevant : List Char :=
  "I cannot answer based on the documents.".data

/-- The fallback literal of line 257 (generation provider failure). -/
def generationFallback : List Char :=
  "I cannot answer based on the documents.".data

/-- `generate_answer` (lines 234-257).  The prompts of lines 238-245 only
feed the external provider and carry no control flow; `providerResponse`
is the provider outcome (`none` models any exception of lines 247-256); a
successful response is stripped (line 255). -/
def generate_answer (providerResponse : Option (List Char)) : List Char :=
  match providerResponse with
  | some content => pyStrip content
  | none => generationFallback

/-- Python `sep.join`, used with the blank-line separator at line 289. -/
def joinSep (sep : List Char) : List (List Char) → List Char
  | [] => []
  | [s] => s
  | s :: rest => s ++ sep ++ joinSep sep rest

/-- One element of `context_parts` (line 288): document/page header, a
newline, then the chunk text. -/
def contextPart (c : Chunk) : List Char :=
  "Document: ".data ++ c.document ++ ", page ".data ++
    (toString c.page_number).data ++ '\n' :: c.text

/-- The grounding context of lines 288-289. -/
def buildContext (cs : List Chunk) : List Char :=
  joinSep ("\n\n".data) (cs.map contextPart)

/-- The observable outcome of one `answer_question` call: the returned
string, plus whether the embedding gateway was called (line 268), whether
the similarity ranking ran (lines 273-277), and whether the generation
provider was called (line 296). -/
structure QueryResult where
  answer : List Char
  embedCalled : Bool
  rankCalled : Bool
  genCalled : Bool
deriving DecidableEq

/-- `answer_question` (lines 260-296).  `chunks` is the global `CHUNKS`
corpus index; `qEmbed` is the value `embed_texts([question])` returns
(`[]` models gateway failure per lines 128-135); `providerResponse` and
`useLLM` parametrise the generation call and the `USE_LLM` switch.  The
`DEBUG` prints (lines 283-286, 292-293) carry no control flow and are not
modelled. -/
noncomputable def answer_question (question : List Char) (chunks : List Chunk)
    (qEmbed : List (List ℝ)) (providerResponse : Option (List Char))
    (useLLM : Bool) : QueryResult :=
  if (tokenize question).isEmpty then ⟨refusalNoTokens, false, false, false⟩
  else if chunks.isEmpty then ⟨refusalEmptyCorpus, false, false, false⟩
  else if qEmbed.isEmpty then ⟨refusalEmbedFail, true, false, false⟩
  else if (topChunks qEmbed.headI chunks).isEmpty then
    ⟨refusalNoRelevant, true, true, false⟩
  else if !useLLM then ⟨buildContext (topChunks qEmbed.headI chunks), true, true, false⟩
  else ⟨generate_answer providerResponse, true, true, true⟩

/-- Claim C9: the five textual failure constants of the query path are all
one and the same string. -/
theorem refusal_strings_all_equal :
    refusalNoTokens = "I cannot answer based on the documents.".data ∧
      refusalEmptyCorpus = refusalNoTokens ∧
      refusalEmbedFail = refusalNoTokens ∧
      refusalNoRelevant = refusalNoTokens ∧
      generationFallback = refusalNoTokens :=
  ⟨rfl, rfl, rfl, rfl, rfl⟩

/-- Claim C1: `answer_question` is a total function of its inputs; a query
with zero tokens yields the fixed refusal with no embedding or generation
call; and every possible answer is the fixed refusal string, the raw
grounding context, or a stripped provider answer. -/
theorem answer_question_total (question : List Char) (chunks : List Chunk)
    (qEmbed : List (List ℝ)) (pr : Option (List Char)) (useLLM : Bool) :
    (tokenize question = [] →
      answer_question question chunks qEmbed pr useLLM =
        ⟨refusalNoTokens, false, false, false⟩) ∧
      ((answer_question question chunks qEmbed pr useLLM).answer =
          "I cannot answer based on the documents.".data ∨
        (∃ top, (answer_question question chunks qEmbed pr useLLM).answer =
          buildContext top) ∨
        (∃ content, pr = some content ∧
          (answer_question question chunks qEmbed pr useLLM).answer =
            pyStrip content)) := by
  constructor
  · intro htok
    have ht : (tokenize question).isEmpty = true := List.isEmpty_iff.2 htok
    rw [answer_question, if_pos ht]
  · by_cases ht : (tokenize question).isEmpty = true
    · rw [answer_question, if_pos ht]
      exact Or.inl rfl
    · by_cases hch : chunks.isEmpty = true
      · rw [answer_question, if_neg ht, if_pos hch]
        exact Or.inl rfl
      · by_cases hqe : qEmbed.isEmpty = true
        · rw [answer_question, if_neg ht, if_neg hch, if_pos hqe]
          exact Or.inl rfl
        · by_cases htop : (topChunks qEmbed.headI chunks).isEmpty = true
          · rw [answer_question, if_neg ht, if_neg hch, if_neg hqe, if_pos htop]
            exact Or.inl rfl
          · by_cases hu : (!useLLM) = true
            · rw [answer_question, if_neg ht, if_neg hch, if_neg hqe, if_neg htop,
                if_pos hu]
              exact Or.inr (Or.inl ⟨topChunks qEmbed.headI chunks, rfl⟩)
            · rw [answer_question, if_neg ht, if_neg hch, if_neg hqe, if_neg htop,
                if_neg hu]
              cases pr with
              | none => exact Or.inl rfl
              | some content =>
                exact Or.inr (Or.inr ⟨content, rfl, rfl⟩)

/-- Witness for C1: the whitespace-only query refuses with no calls. -/
theorem answer_question_total_witness :
    tokenize (" ".data) = [] ∧
      answer_question (" ".data) [] [] none true =
        ⟨refusalNoTokens, false, false, false⟩ :=
  ⟨by decide, (answer_question_total (" ".data) [] [] none true).1 (by decide)⟩

/-- Claim C5: with an empty corpus index, every query refuses immediately
and neither the embedding gateway nor the generation provider is called. -/
theorem empty_corpus_refuses (question : List Char) (qEmbed : List (List ℝ))
    (pr : Option (List Char)) (useLLM : Bool) :
    (answer_question question [] qEmbed pr useLLM).answer =
        "I cannot answer based on the documents.".data ∧
      (answer_question question [] qEmbed pr useLLM).embedCalled = false ∧
      (answer_question question [] qEmbed pr useLLM).rankCalled = false ∧
      (answer_question question [] qEmbed pr useLLM).genCalled = false := by
  by_cases ht : (tokenize question).isEmpty = true
  · rw [answer_question, if_pos ht]
    exact ⟨rfl, rfl, rfl, rfl⟩
  · rw [answer_question, if_neg ht, if_pos (by rfl)]
    exact ⟨rfl, rfl, rfl, rfl⟩

/-- Claim C6: a query with tokens against a non-empty corpus for which the
embedding gateway returns an empty result yields the fixed refusal, and
neither the similarity ranker nor the generation stage runs. -/
theorem embed_failure_refuses (question : List Char) (chunks : List Chunk)
    (pr : Option (List Char)) (useLLM : Bool)
    (htok : tokenize question ≠ []) (hchunks : chunks ≠ []) :
    answer_question question chunks [] pr useLLM =
      ⟨refusalEmbedFail, true, false, false⟩ := by
  have ht : ¬ (tokenize question).isEmpty = true := by
    intro hb
    exact htok (List.isEmpty_iff.1 hb)
  have hch : ¬ chunks.isEmpty = true := by
    intro hb
    exact hchunks (List.isEmpty_iff.1 hb)
  rw [answer_question, if_neg ht, if_neg hch, if_pos (by rfl)]

/-- Witness for C6 at a concrete query and corpus. -/
theorem embed_failure_refuses_witness :
    tokenize ("hello".data) ≠ [] ∧
      answer_question ("hello".data) [⟨ "d".data, 1, "t".data, []⟩] [] none true =
        ⟨refusalEmbedFail, true, false, false⟩ :=
  ⟨by decide,
    embed_failure_refuses ("hello".data) [⟨ "d".data, 1, "t".data, []⟩] none true
      (by decide) (by simp)⟩
